import Mathlib

/-!
Verification of the BlazeCSV parsing engine against its specification.

The C++ header is shallowly embedded: byte buffers become `List Char`,
`std::string_view` slices become `List Char` values holding the bytes,
fallible parsing returns `Except ErrorCode`, machine integers are `Nat`
with explicit truncation (`% 256` for `uint8_t`, `% 2 ^ 32` for
`uint32_t`), and the stateful readers are explicit state-passing
functions over the unconsumed suffix of the mapped file.
-/

set_option maxHeartbeats 1000000

namespace BlazeCSV

/-- `enum class ErrorCode` of the library. -/
inductive ErrorCode where
  | Ok
  | InvalidInteger
  | InvalidFloat
  | InvalidBool
  | InvalidDate
  | InvalidDateTime
  | NullValue
  | OutOfRange
  | ColumnCountMismatch
  | EndOfFile
  | FileOpenError
  deriving DecidableEq, Repr

/-- `struct ErrorInfo`: code, line (`uint32_t`), column (`uint8_t`). -/
structure ErrorInfo where
  code : ErrorCode := .Ok
  line : Nat := 0
  column : Nat := 0
  deriving DecidableEq, Repr

/-- The five compile-time toggles of `template NullPolicy`. -/
structure NullPol where
  empty_is_null : Bool
  na_is_null : Bool
  null_is_null : Bool
  none_is_null : Bool
  dash_is_null : Bool
  deriving DecidableEq, Repr

/-- `NullPolicy::check(begin, end)`: the sequence of early-return tests of
the source, with the `if constexpr` toggles as boolean conjuncts.  The
`memcmp` comparisons under a length guard become list-equality tests. -/
def nullCheck (P : NullPol) (s : List Char) : Bool :=
  if P.empty_is_null && s.length == 0 then true
  else if P.null_is_null && s.length == 4 &&
      (s == "null".toList || s == "NULL".toList) then true
  else if P.none_is_null && s.length == 4 &&
      (s == "None".toList || s == "none".toList || s == "NONE".toList) then true
  else if P.na_is_null &&
      ((s.length == 2 && s == "NA".toList) ||
       (s.length == 3 && (s == "N/A".toList || s == "n/a".toList))) then true
  else if P.dash_is_null && s.length == 1 && s == "-".toList then true
  else false

/-- `using NullStrict = NullPolicy<true, false, false, false, false>` -/
def NullStrict : NullPol := ⟨true, false, false, false, false⟩

/-- `using NullStandard = NullPolicy<true, true, true, false, false>` -/
def NullStandard : NullPol := ⟨true, true, true, false, false⟩

/-- `using NullLenient = NullPolicy<true, true, true, true, true>` -/
def NullLenient : NullPol := ⟨true, true, true, true, true⟩

/-- `using NoNullCheck = NullPolicy<false, false, false, false, false>` -/
def NoNullCheck : NullPol := ⟨false, false, false, false, false⟩

/-- Full characterization of `NullPolicy::check`: it accepts exactly the
vocabulary items whose toggle is enabled. -/
lemma nullCheck_iff_vocab (P : NullPol) (s : List Char) :
    nullCheck P s = true ↔
      (P.empty_is_null = true ∧ s = []) ∨
      (P.na_is_null = true ∧
        (s = "NA".toList ∨ s = "N/A".toList ∨ s = "n/a".toList)) ∨
      (P.null_is_null = true ∧ (s = "null".toList ∨ s = "NULL".toList)) ∨
      (P.none_is_null = true ∧
        (s = "None".toList ∨ s = "none".toList ∨ s = "NONE".toList)) ∨
      (P.dash_is_null = true ∧ s = "-".toList) := by
  rcases P with ⟨e, na, nl, no, da⟩
  by_cases h1 : s = []
  · subst h1; cases e <;> cases na <;> cases nl <;> cases no <;> cases da <;> decide
  by_cases h2 : s = "NA".toList
  · subst h2; cases e <;> cases na <;> cases nl <;> cases no <;> cases da <;> decide
  by_cases h3 : s = "N/A".toList
  · subst h3; cases e <;> cases na <;> cases nl <;> cases no <;> cases da <;> decide
  by_cases h4 : s = "n/a".toList
  · subst h4; cases e <;> cases na <;> cases nl <;> cases no <;> cases da <;> decide
  by_cases h5 : s = "null".toList
  · subst h5; cases e <;> cases na <;> cases nl <;> cases no <;> cases da <;> decide
  by_cases h6 : s = "NULL".toList
  · subst h6; cases e <;> cases na <;> cases nl <;> cases no <;> cases da <;> decide
  by_cases h7 : s = "None".toList
  · subst h7; cases e <;> cases na <;> cases nl <;> cases no <;> cases da <;> decide
  by_cases h8 : s = "none".toList
  · subst h8; cases e <;> cases na <;> cases nl <;> cases no <;> cases da <;> decide
  by_cases h9 : s = "NONE".toList
  · subst h9; cases e <;> cases na <;> cases nl <;> cases no <;> cases da <;> decide
  by_cases h10 : s = "-".toList
  · subst h10; cases e <;> cases na <;> cases nl <;> cases no <;> cases da <;> decide
  have hlen : s.length ≠ 0 := by
    intro h; exact h1 (List.length_eq_zero.mp h)
  unfold nullCheck
  split_ifs with g1 g2 g3 g4 g5 <;> simp_all

/-- C7: for every compile-time null policy `P` and every field slice,
`is_null` (which delegates to `NullPolicy::check`) returns `true` exactly
on the case-sensitive vocabulary selected by the enabled toggles of `P`:
the empty slice for the empty toggle, `NA`/`N/A`/`n/a` for the NA toggle,
`null`/`NULL` for the null toggle, `None`/`none`/`NONE` for the none
toggle, and `-` for the dash toggle. -/
theorem null_policy_vocabulary (P : NullPol) (s : List Char) :
    nullCheck P s = true ↔
      (P.empty_is_null = true ∧ s = []) ∨
      (P.na_is_null = true ∧
        (s = "NA".toList ∨ s = "N/A".toList ∨ s = "n/a".toList)) ∨
      (P.null_is_null = true ∧ (s = "null".toList ∨ s = "NULL".toList)) ∨
      (P.none_is_null = true ∧
        (s = "None".toList ∨ s = "none".toList ∨ s = "NONE".toList)) ∨
      (P.dash_is_null = true ∧ s = "-".toList) :=
  nullCheck_iff_vocab P s

/-- C8 counterexample: the claim says the Standard preset does not treat
the null family as null and that `is_null` returns `false` on the slice
`null`; in the source, `NullStandard = NullPolicy<true, true, true, false,
false>` enables the null toggle, so `check` returns `true` on `null` and
on `NULL`. -/
theorem null_standard_accepts_null_family :
    nullCheck NullStandard "null".toList = true ∧
    nullCheck NullStandard "NULL".toList = true := by decide

/-- C8 amended: the Standard preset treats the empty slice, the NA family
AND the null family as null, and does not treat the none family or dash
as null. -/
theorem null_standard_vocabulary (s : List Char) :
    nullCheck NullStandard s = true ↔
      (s = [] ∨ s = "NA".toList ∨ s = "N/A".toList ∨ s = "n/a".toList ∨
       s = "null".toList ∨ s = "NULL".toList) := by
  rw [nullCheck_iff_vocab]
  simp [NullStandard]
  tauto

/-! ## Integer field parsing (`FieldRef::parse<T>` for integral `T`) -/

/-- The subset of `std::errc` produced by `std::from_chars`. -/
inductive Errc where
  | ok
  | invalid_argument
  | result_out_of_range
  deriving DecidableEq, Repr

/-- Base-10 value of a run of ASCII digit characters, accumulated the way
`std::from_chars` does. -/
def digitsVal (ds : List Char) : Nat :=
  ds.foldl (fun a c => a * 10 + (c.toNat - 48)) 0

/-- Model of `std::from_chars(begin, end, value)` for an integer type with
range `[lo, hi]`; `sgn` is true for signed types (a leading `-` is
accepted; a leading `+` never is).  Returns the number of characters
consumed, the error condition, and the parsed value.  The longest prefix
of the form sign-then-digits is matched; on overflow the whole matched
prefix is still consumed and `result_out_of_range` is reported. -/
def fromCharsInt (sgn : Bool) (lo hi : Int) (s : List Char) : Nat × Errc × Int :=
  let neg : Bool := sgn && (s.head? == some '-')
  let s1 := if neg then s.tail else s
  let ds := s1.takeWhile Char.isDigit
  if ds.length = 0 then (0, .invalid_argument, 0)
  else
    let v : Int := if neg then -(digitsVal ds : Int) else (digitsVal ds : Int)
    let consumed := (if neg then 1 else 0) + ds.length
    if v < lo ∨ hi < v then (consumed, .result_out_of_range, 0)
    else (consumed, .ok, v)

/-- `FieldRef::parse<T>` for integral `T` (not `bool`): succeed iff
`from_chars` reported no error and consumed the whole slice; otherwise
`OutOfRange` when the error was `result_out_of_range`, else
`InvalidInteger`. -/
def parseIntField (sgn : Bool) (lo hi : Int) (s : List Char) :
    Except ErrorCode Int :=
  match fromCharsInt sgn lo hi s with
  | (consumed, ec, v) =>
    if ec = Errc.ok ∧ consumed = s.length then .ok v
    else .error
      (if ec = Errc.result_out_of_range then .OutOfRange else .InvalidInteger)

/-- Range bound of a 32-bit `int`. -/
def int32Min : Int := -2147483648

/-- Range bound of a 32-bit `int`. -/
def int32Max : Int := 2147483647

lemma isDigit_ne_dash {c : Char} (h : c.isDigit = true) : c ≠ '-' := by
  intro h'; subst h'; exact absurd h (by decide)

/-- Evaluation of the model of `from_chars` when the sign path is taken. -/
lemma fromCharsInt_neg (lo hi : Int) (t : List Char) :
    fromCharsInt true lo hi ('-' :: t) =
      (let ds := t.takeWhile Char.isDigit
       if ds.length = 0 then (0, Errc.invalid_argument, 0)
       else if -(digitsVal ds : Int) < lo ∨ hi < -(digitsVal ds : Int) then
         (1 + ds.length, Errc.result_out_of_range, 0)
       else (1 + ds.length, Errc.ok, -(digitsVal ds : Int))) := by
  simp [fromCharsInt]

/-- Evaluation of the model of `from_chars` when no sign is consumed. -/
lemma fromCharsInt_pos (sgn : Bool) (lo hi : Int) (s : List Char)
    (h : (sgn && (s.head? == some '-')) = false) :
    fromCharsInt sgn lo hi s =
      (let ds := s.takeWhile Char.isDigit
       if ds.length = 0 then (0, Errc.invalid_argument, 0)
       else if (digitsVal ds : Int) < lo ∨ hi < (digitsVal ds : Int) then
         (ds.length, Errc.result_out_of_range, 0)
       else (ds.length, Errc.ok, (digitsVal ds : Int))) := by
  simp only [fromCharsInt, h]
  simp

/-- A list is its own run of digits exactly when all its members are
digits. -/
lemma takeWhile_digits_self {l : List Char} (h : ∀ c ∈ l, c.isDigit = true) :
    l.takeWhile Char.isDigit = l :=
  List.takeWhile_eq_self_iff.mpr h

/-- The digit run of `ds ++ rest` is `ds` when `ds` is all digits and
`rest` does not start with one. -/
lemma takeWhile_digits_append {ds rest : List Char}
    (hds : ∀ c ∈ ds, c.isDigit = true)
    (hrest : ∀ c, rest.head? = some c → c.isDigit = false) :
    (ds ++ rest).takeWhile Char.isDigit = ds := by
  rw [List.takeWhile_append]
  rw [takeWhile_digits_self hds]
  simp only [if_pos rfl]
  cases rest with
  | nil => simp
  | cons c t =>
      have : c.isDigit = false := hrest c rfl
      simp [List.takeWhile_cons, this]

/-- `parse` evaluated on a slice beginning with a minus sign (signed
case). -/
lemma parseIntField_neg_eq (lo hi : Int) (t : List Char) :
    parseIntField true lo hi ('-' :: t) =
      (if (t.takeWhile Char.isDigit).length = 0 then .error .InvalidInteger
       else if -(digitsVal (t.takeWhile Char.isDigit) : Int) < lo ∨
           hi < -(digitsVal (t.takeWhile Char.isDigit) : Int) then
         .error .OutOfRange
       else if 1 + (t.takeWhile Char.isDigit).length = t.length + 1 then
         .ok (-(digitsVal (t.takeWhile Char.isDigit) : Int))
       else .error .InvalidInteger) := by
  simp only [parseIntField, fromCharsInt_neg]
  split_ifs <;> simp_all

/-- `parse` evaluated on a slice in which no sign is consumed. -/
lemma parseIntField_pos_eq (sgn : Bool) (lo hi : Int) (s : List Char)
    (h : (sgn && (s.head? == some '-')) = false) :
    parseIntField sgn lo hi s =
      (if (s.takeWhile Char.isDigit).length = 0 then .error .InvalidInteger
       else if (digitsVal (s.takeWhile Char.isDigit) : Int) < lo ∨
           hi < (digitsVal (s.takeWhile Char.isDigit) : Int) then
         .error .OutOfRange
       else if (s.takeWhile Char.isDigit).length = s.length then
         .ok (digitsVal (s.takeWhile Char.isDigit) : Int)
       else .error .InvalidInteger) := by
  simp only [parseIntField, fromCharsInt_pos sgn lo hi s h]
  split_ifs <;> simp_all

/-- Success characterization of integral `parse`. -/
lemma parseIntField_ok_iff (sgn : Bool) (lo hi : Int) (s : List Char) (v : Int) :
    parseIntField sgn lo hi s = .ok v ↔
      ∃ (neg : Bool) (ds : List Char),
        (neg = true → sgn = true) ∧
        s = (if neg then ['-'] else []) ++ ds ∧
        ds ≠ [] ∧ (∀ c ∈ ds, c.isDigit = true) ∧
        v = (if neg then -(digitsVal ds : Int) else (digitsVal ds : Int)) ∧
        lo ≤ v ∧ v ≤ hi := by
  constructor
  · intro h
    by_cases hn : (sgn && (s.head? == some '-')) = true
    · obtain ⟨hsgn, hh⟩ : sgn = true ∧ (s.head? == some '-') = true := by
        simpa using hn
      subst hsgn
      rw [beq_iff_eq] at hh
      cases s with
      | nil => simp at hh
      | cons c t =>
        obtain rfl : c = '-' := by simpa using hh
        rw [parseIntField_neg_eq] at h
        by_cases h0 : (t.takeWhile Char.isDigit).length = 0
        · rw [if_pos h0] at h
          exact Except.noConfusion h
        rw [if_neg h0] at h
        by_cases hoob : -(digitsVal (t.takeWhile Char.isDigit) : Int) < lo ∨
            hi < -(digitsVal (t.takeWhile Char.isDigit) : Int)
        · rw [if_pos hoob] at h
          exact Except.noConfusion h
        rw [if_neg hoob] at h
        by_cases hlen : 1 + (t.takeWhile Char.isDigit).length = t.length + 1
        · rw [if_pos hlen] at h
          have hds : t.takeWhile Char.isDigit = t := by
            apply (List.takeWhile_prefix Char.isDigit).eq_of_length
            omega
          obtain rfl : -(digitsVal (t.takeWhile Char.isDigit) : Int) = v := by
            simpa using h
          push_neg at hoob
          refine ⟨true, t, fun _ => rfl, by simp, ?_, ?_, ?_, hoob.1, hoob.2⟩
          · intro ht
            subst ht
            simp at h0
          · exact fun c hc => List.takeWhile_eq_self_iff.mp hds c hc
          · simp [hds]
        · rw [if_neg hlen] at h
          exact Except.noConfusion h
    · rw [parseIntField_pos_eq sgn lo hi s (by simpa using hn)] at h
      by_cases h0 : (s.takeWhile Char.isDigit).length = 0
      · rw [if_pos h0] at h
        exact Except.noConfusion h
      rw [if_neg h0] at h
      by_cases hoob : (digitsVal (s.takeWhile Char.isDigit) : Int) < lo ∨
          hi < (digitsVal (s.takeWhile Char.isDigit) : Int)
      · rw [if_pos hoob] at h
        exact Except.noConfusion h
      rw [if_neg hoob] at h
      by_cases hlen : (s.takeWhile Char.isDigit).length = s.length
      · rw [if_pos hlen] at h
        have hds : s.takeWhile Char.isDigit = s :=
          (List.takeWhile_prefix Char.isDigit).eq_of_length hlen
        obtain rfl : (digitsVal (s.takeWhile Char.isDigit) : Int) = v := by
          simpa using h
        push_neg at hoob
        refine ⟨false, s, by simp, by simp, ?_, ?_, ?_, hoob.1, hoob.2⟩
        · intro hs
          subst hs
          simp at h0
        · exact fun c hc => List.takeWhile_eq_self_iff.mp hds c hc
        · simp [hds]
      · rw [if_neg hlen] at h
        exact Except.noConfusion h
  · rintro ⟨neg, ds, h1, h2, h3, h4, h5, h6, h7⟩
    have hself : ds.takeWhile Char.isDigit = ds := takeWhile_digits_self h4
    have hlen0 : ¬ ds.length = 0 := fun h => h3 (List.length_eq_zero.mp h)
    cases neg with
    | true =>
      have hsgn : sgn = true := h1 rfl
      subst hsgn
      simp at h2 h5
      obtain rfl : s = '-' :: ds := h2
      rw [parseIntField_neg_eq, hself]
      have hoob : ¬ (-(digitsVal ds : Int) < lo ∨ hi < -(digitsVal ds : Int)) := by
        push_neg
        rw [← h5]
        exact ⟨h6, h7⟩
      rw [if_neg hlen0, if_neg hoob, if_pos (by omega)]
      rw [h5]
    | false =>
      simp at h2 h5
      obtain rfl : s = ds := h2
      have hhead : (sgn && (s.head? == some '-')) = false := by
        cases hs : s with
        | nil => exact absurd hs h3
        | cons c t =>
          have hc : c.isDigit = true := h4 c (hs ▸ List.mem_cons_self c t)
          have hcd : c ≠ '-' := isDigit_ne_dash hc
          simp [hcd]
      rw [parseIntField_pos_eq sgn lo hi s hhead, hself]
      have hoob : ¬ ((digitsVal s : Int) < lo ∨ hi < (digitsVal s : Int)) := by
        push_neg
        rw [← h5]
        exact ⟨h6, h7⟩
      rw [if_neg hlen0, if_neg hoob, if_pos rfl]
      rw [h5]

lemma dropWhile_head_not {α : Type} (p : α → Bool) (l : List α) (c : α)
    (h : (l.dropWhile p).head? = some c) : p c = false := by
  have h2 := List.head?_dropWhile_not p l
  rw [h] at h2
  exact h2

/-- OutOfRange characterization of integral `parse`: the longest
sign-and-digits prefix overflows, no matter what follows it. -/
lemma parseIntField_oor_iff (sgn : Bool) (lo hi : Int) (s : List Char) :
    parseIntField sgn lo hi s = .error .OutOfRange ↔
      ∃ (neg : Bool) (ds rest : List Char),
        (neg = true → sgn = true) ∧
        s = (if neg then ['-'] else []) ++ ds ++ rest ∧
        ds ≠ [] ∧ (∀ c ∈ ds, c.isDigit = true) ∧
        (∀ c, rest.head? = some c → c.isDigit = false) ∧
        ((if neg then -(digitsVal ds : Int) else (digitsVal ds : Int)) < lo ∨
         hi < (if neg then -(digitsVal ds : Int) else (digitsVal ds : Int))) := by
  constructor
  · intro h
    by_cases hn : (sgn && (s.head? == some '-')) = true
    · obtain ⟨hsgn, hh⟩ : sgn = true ∧ (s.head? == some '-') = true := by
        simpa using hn
      subst hsgn
      rw [beq_iff_eq] at hh
      cases s with
      | nil => simp at hh
      | cons c t =>
        obtain rfl : c = '-' := by simpa using hh
        rw [parseIntField_neg_eq] at h
        by_cases h0 : (t.takeWhile Char.isDigit).length = 0
        · rw [if_pos h0] at h
          simp at h
        rw [if_neg h0] at h
        by_cases hoob : -(digitsVal (t.takeWhile Char.isDigit) : Int) < lo ∨
            hi < -(digitsVal (t.takeWhile Char.isDigit) : Int)
        · refine ⟨true, t.takeWhile Char.isDigit, t.dropWhile Char.isDigit,
            fun _ => rfl, ?_, ?_, ?_, ?_, ?_⟩
          · simp [List.takeWhile_append_dropWhile]
          · intro ht
            rw [ht] at h0
            simp at h0
          · exact fun c hc => List.mem_takeWhile_imp hc
          · exact fun c hc => dropWhile_head_not Char.isDigit t c hc
          · simpa using hoob
        rw [if_neg hoob] at h
        by_cases hlen : 1 + (t.takeWhile Char.isDigit).length = t.length + 1
        · rw [if_pos hlen] at h
          exact Except.noConfusion h
        · rw [if_neg hlen] at h
          simp at h
    · rw [parseIntField_pos_eq sgn lo hi s (by simpa using hn)] at h
      by_cases h0 : (s.takeWhile Char.isDigit).length = 0
      · rw [if_pos h0] at h
        simp at h
      rw [if_neg h0] at h
      by_cases hoob : (digitsVal (s.takeWhile Char.isDigit) : Int) < lo ∨
          hi < (digitsVal (s.takeWhile Char.isDigit) : Int)
      · refine ⟨false, s.takeWhile Char.isDigit, s.dropWhile Char.isDigit,
          by simp, ?_, ?_, ?_, ?_, ?_⟩
        · simp [List.takeWhile_append_dropWhile]
        · intro hs
          rw [hs] at h0
          simp at h0
        · exact fun c hc => List.mem_takeWhile_imp hc
        · exact fun c hc => dropWhile_head_not Char.isDigit s c hc
        · simpa using hoob
      rw [if_neg hoob] at h
      by_cases hlen : (s.takeWhile Char.isDigit).length = s.length
      · rw [if_pos hlen] at h
        exact Except.noConfusion h
      · rw [if_neg hlen] at h
        simp at h
  · rintro ⟨neg, ds, rest, h1, h2, h3, h4, h5, h6⟩
    have hta : (ds ++ rest).takeWhile Char.isDigit = ds :=
      takeWhile_digits_append h4 h5
    have hlen0 : ¬ ds.length = 0 := fun h => h3 (List.length_eq_zero.mp h)
    cases neg with
    | true =>
      have hsgn : sgn = true := h1 rfl
      subst hsgn
      simp at h2 h6
      obtain rfl : s = '-' :: (ds ++ rest) := by simpa using h2
      rw [parseIntField_neg_eq, hta]
      rw [if_neg hlen0, if_pos h6]
    | false =>
      simp at h2 h6
      obtain rfl : s = ds ++ rest := h2
      have hhead : (sgn && ((ds ++ rest).head? == some '-')) = false := by
        cases hs : ds with
        | nil => exact absurd hs h3
        | cons c t =>
          have hc : c.isDigit = true := h4 c (hs ▸ List.mem_cons_self c t)
          have hcd : c ≠ '-' := isDigit_ne_dash hc
          simp [hs, hcd]
      rw [parseIntField_pos_eq sgn lo hi (ds ++ rest) hhead, hta]
      rw [if_neg hlen0, if_pos h6]

/-- C5 counterexample: the claim (and spec) say integral `parse` accepts
an optionally plus-signed numeral, but `std::from_chars` never accepts a
leading `+`, so the well-formed, in-range slice `+5` fails with
`InvalidInteger` instead of succeeding with value 5. -/
theorem parse_int_rejects_plus_sign :
    parseIntField true int32Min int32Max "+5".toList =
      .error .InvalidInteger := by rfl

/-- C5 amended: integral `parse` succeeds exactly when the whole slice is
an optionally minus-signed base-10 numeral (minus only for signed types;
a leading plus is never accepted) whose value fits in `[lo, hi]`; it
fails with `OutOfRange` exactly when the longest sign-and-digits prefix
is non-empty and overflows the type, regardless of any trailing bytes;
every other failure is `InvalidInteger`. -/
theorem parse_int_characterization (sgn : Bool) (lo hi : Int) (s : List Char) :
    (∀ v : Int,
      parseIntField sgn lo hi s = .ok v ↔
        ∃ (neg : Bool) (ds : List Char),
          (neg = true → sgn = true) ∧
          s = (if neg then ['-'] else []) ++ ds ∧
          ds ≠ [] ∧ (∀ c ∈ ds, c.isDigit = true) ∧
          v = (if neg then -(digitsVal ds : Int) else (digitsVal ds : Int)) ∧
          lo ≤ v ∧ v ≤ hi) ∧
    (parseIntField sgn lo hi s = .error .OutOfRange ↔
      ∃ (neg : Bool) (ds rest : List Char),
        (neg = true → sgn = true) ∧
        s = (if neg then ['-'] else []) ++ ds ++ rest ∧
        ds ≠ [] ∧ (∀ c ∈ ds, c.isDigit = true) ∧
        (∀ c, rest.head? = some c → c.isDigit = false) ∧
        ((if neg then -(digitsVal ds : Int) else (digitsVal ds : Int)) < lo ∨
         hi < (if neg then -(digitsVal ds : Int) else (digitsVal ds : Int)))) :=
  ⟨fun v => parseIntField_ok_iff sgn lo hi s v, parseIntField_oor_iff sgn lo hi s⟩

/-- Concrete instance of the amended C5 statement. -/
theorem parse_int_characterization_witness :
    parseIntField true int32Min int32Max "-42".toList = .ok (-42) :=
  ((parse_int_characterization true int32Min int32Max "-42".toList).1 (-42)).mpr
    ⟨true, ['4', '2'], fun _ => rfl, by decide, by decide, by decide,
      by decide, by decide, by decide⟩

/-! ## Date parsing (`FieldRef::parse_date`) -/

/-- The ASCII character of the decimal digit `n`. -/
def digitChar (n : Nat) : Char := Char.ofNat (48 + n)

lemma digitChar_isDigit {a : Nat} (h : a < 10) : (digitChar a).isDigit = true := by
  interval_cases a <;> decide

lemma digitChar_toNat {a : Nat} (h : a < 10) : (digitChar a).toNat = 48 + a := by
  interval_cases a <;> decide

lemma digitChar_ne_dash {a : Nat} (h : a < 10) : digitChar a ≠ '-' := by
  interval_cases a <;> decide

/-- Proleptic-Gregorian leap-year rule used by `std::chrono`. -/
def isLeap (y : Int) : Bool :=
  y % 4 == 0 && (y % 100 != 0 || y % 400 == 0)

/-- Number of days of month `m` of year `y` (0 for an invalid month). -/
def daysInMonth (y m : Int) : Int :=
  if m == 1 || m == 3 || m == 5 || m == 7 || m == 8 || m == 10 || m == 12
  then 31
  else if m == 4 || m == 6 || m == 9 || m == 11 then 30
  else if m == 2 then (if isLeap y then 29 else 28)
  else 0

/-- `std::chrono::year_month_day::ok()` for the values produced by
`parse_date`: the year fits `std::chrono::year`, the month is 1..12 and
the day is valid for the month and year.  A negative month or day is cast
to a huge unsigned value in the source and likewise fails the range
check, which the integer-level comparison reproduces. -/
def ymdOk (y m d : Int) : Bool :=
  if -32767 ≤ y ∧ y ≤ 32767 ∧ 1 ≤ m ∧ m ≤ 12 ∧ 1 ≤ d ∧ d ≤ daysInMonth y m
  then true else false

/-- `FieldRef::parse_date`: `from_chars` on the windows `[0,4)`, `[5,7)`
and `[8,10)`, separator checks at offsets 4 and 7, then the
`year_month_day::ok()` validity check.  The source only demands
`size() >= 10`; trailing bytes are never examined. -/
def parse_date (s : List Char) : Except ErrorCode (Int × Int × Int) :=
  if s.length < 10 then .error .InvalidDate
  else
    let r1 := fromCharsInt true int32Min int32Max (s.take 4)
    if r1.2.1 = Errc.ok ∧ s.getD 4 ' ' = '-' then
      let r2 := fromCharsInt true int32Min int32Max ((s.drop 5).take 2)
      if r2.2.1 = Errc.ok ∧ s.getD 7 ' ' = '-' then
        let r3 := fromCharsInt true int32Min int32Max ((s.drop 8).take 2)
        if r3.2.1 = Errc.ok then
          if ymdOk r1.2.2 r2.2.2 r3.2.2 then .ok (r1.2.2, r2.2.2, r3.2.2)
          else .error .InvalidDate
        else .error .InvalidDate
      else .error .InvalidDate
    else .error .InvalidDate

lemma ymdOk_eq_true_iff {y m d : Int} (hy0 : 0 ≤ y) (hy1 : y ≤ 9999) :
    ymdOk y m d = true ↔
      (1 ≤ m ∧ m ≤ 12 ∧ 1 ≤ d ∧ d ≤ daysInMonth y m) := by
  unfold ymdOk
  split_ifs with h
  · simp only [true_iff]
    exact ⟨h.2.2.1, h.2.2.2⟩
  · simp only [false_iff]
    intro hc
    exact h ⟨by omega, by omega, hc.1, hc.2.1, hc.2.2.1, hc.2.2.2⟩

lemma fromCharsInt_two_digits {a b : Nat} (ha : a < 10) (hb : b < 10) :
    fromCharsInt true int32Min int32Max [digitChar a, digitChar b] =
      (2, Errc.ok, ((10 * a + b : Nat) : Int)) := by
  have hh : (true && (([digitChar a, digitChar b] : List Char).head? ==
      some '-')) = false := by
    simp [digitChar_ne_dash ha]
  rw [fromCharsInt_pos true int32Min int32Max _ hh]
  have hself : List.takeWhile Char.isDigit [digitChar a, digitChar b] =
      [digitChar a, digitChar b] := by
    apply takeWhile_digits_self
    intro x hx
    simp only [List.mem_cons, List.not_mem_nil, or_false] at hx
    rcases hx with rfl | rfl
    · exact digitChar_isDigit ha
    · exact digitChar_isDigit hb
  have hv : digitsVal [digitChar a, digitChar b] = 10 * a + b := by
    simp [digitsVal, digitChar_toNat ha, digitChar_toNat hb]
    omega
  have hoob : ¬ (((10 * a + b : Nat) : Int) < int32Min ∨
      int32Max < ((10 * a + b : Nat) : Int)) := by
    unfold int32Min int32Max
    push_neg
    have h0 : (0 : Int) ≤ ((10 * a + b : Nat) : Int) := Int.natCast_nonneg _
    have h99 : ((10 * a + b : Nat) : Int) ≤ 99 := by
      have : (10 * a + b : Nat) ≤ 99 := by omega
      exact_mod_cast this
    omega
  simp only [hself, hv]
  rw [if_neg (by simp), if_neg hoob]
  simp

lemma fromCharsInt_four_digits {a b c d : Nat} (ha : a < 10) (hb : b < 10)
    (hc : c < 10) (hd : d < 10) :
    fromCharsInt true int32Min int32Max
        [digitChar a, digitChar b, digitChar c, digitChar d] =
      (4, Errc.ok, ((1000 * a + 100 * b + 10 * c + d : Nat) : Int)) := by
  have hh : (true &&
      (([digitChar a, digitChar b, digitChar c, digitChar d] :
        List Char).head? == some '-')) = false := by
    simp [digitChar_ne_dash ha]
  rw [fromCharsInt_pos true int32Min int32Max _ hh]
  have hself : List.takeWhile Char.isDigit
      [digitChar a, digitChar b, digitChar c, digitChar d] =
      [digitChar a, digitChar b, digitChar c, digitChar d] := by
    apply takeWhile_digits_self
    intro x hx
    simp only [List.mem_cons, List.not_mem_nil, or_false] at hx
    rcases hx with rfl | rfl | rfl | rfl
    · exact digitChar_isDigit ha
    · exact digitChar_isDigit hb
    · exact digitChar_isDigit hc
    · exact digitChar_isDigit hd
  have hv : digitsVal [digitChar a, digitChar b, digitChar c, digitChar d] =
      1000 * a + 100 * b + 10 * c + d := by
    simp [digitsVal, digitChar_toNat ha, digitChar_toNat hb,
      digitChar_toNat hc, digitChar_toNat hd]
    omega
  have hoob : ¬ (((1000 * a + 100 * b + 10 * c + d : Nat) : Int) < int32Min ∨
      int32Max < ((1000 * a + 100 * b + 10 * c + d : Nat) : Int)) := by
    unfold int32Min int32Max
    push_neg
    have h0 : (0 : Int) ≤ ((1000 * a + 100 * b + 10 * c + d : Nat) : Int) :=
      Int.natCast_nonneg _
    have h99 : ((1000 * a + 100 * b + 10 * c + d : Nat) : Int) ≤ 9999 := by
      have : (1000 * a + 100 * b + 10 * c + d : Nat) ≤ 9999 := by omega
      exact_mod_cast this
    omega
  simp only [hself, hv]
  rw [if_neg (by simp), if_neg hoob]
  simp

/-- C6 counterexample: the claim says every slice other than a valid
10-byte date, including longer slices, yields `InvalidDate`; the source
only checks `size() < 10` and never looks at bytes past offset 9, so the
11-byte slice `2024-02-29X` parses successfully. -/
theorem parse_date_accepts_eleven_bytes :
    ("2024-02-29X".toList.length = 11) ∧
    parse_date "2024-02-29X".toList = .ok (2024, 2, 29) := by
  exact ⟨rfl, rfl⟩

/-- C6 amended: `parse_date` fails with `InvalidDate` on every slice
shorter than 10 bytes; on slices of length at least 10 its result is
determined by the first 10 bytes (trailing bytes are ignored rather than
rejected); a 10-byte all-digit `YYYY-MM-DD` slice succeeds exactly when
the date is calendar-valid (month 1..12, day valid for the month and
year, leap years included); in particular `2024-02-29` succeeds while
`2023-02-29` and `2024-13-01` yield `InvalidDate`. -/
theorem parse_date_first_ten_bytes :
    (∀ s : List Char, s.length < 10 → parse_date s = .error .InvalidDate) ∧
    (∀ s : List Char, 10 ≤ s.length → parse_date s = parse_date (s.take 10)) ∧
    (∀ y1 y2 y3 y4 m1 m2 d1 d2 : Nat,
      y1 < 10 → y2 < 10 → y3 < 10 → y4 < 10 → m1 < 10 → m2 < 10 →
      d1 < 10 → d2 < 10 →
      parse_date [digitChar y1, digitChar y2, digitChar y3, digitChar y4,
          '-', digitChar m1, digitChar m2, '-', digitChar d1, digitChar d2] =
        (if 1 ≤ ((10 * m1 + m2 : Nat) : Int) ∧
            ((10 * m1 + m2 : Nat) : Int) ≤ 12 ∧
            1 ≤ ((10 * d1 + d2 : Nat) : Int) ∧
            ((10 * d1 + d2 : Nat) : Int) ≤
              daysInMonth ((1000 * y1 + 100 * y2 + 10 * y3 + y4 : Nat) : Int)
                ((10 * m1 + m2 : Nat) : Int)
         then .ok (((1000 * y1 + 100 * y2 + 10 * y3 + y4 : Nat) : Int),
                   ((10 * m1 + m2 : Nat) : Int), ((10 * d1 + d2 : Nat) : Int))
         else .error .InvalidDate)) ∧
    (parse_date "2024-02-29".toList = .ok (2024, 2, 29) ∧
     parse_date "2023-02-29".toList = .error .InvalidDate ∧
     parse_date "2024-13-01".toList = .error .InvalidDate) := by
  refine ⟨?_, ?_, ?_, rfl, rfl, rfl⟩
  · intro s h
    simp only [parse_date]
    rw [if_pos h]
  · intro s h
    simp only [parse_date]
    rw [if_neg (show ¬ s.length < 10 by omega)]
    rw [if_neg (show ¬ (s.take 10).length < 10 by
      rw [List.length_take]; omega)]
    have e1 : (s.take 10).take 4 = s.take 4 := by
      rw [List.take_take]
      norm_num
    have e2 : (s.take 10).getD 4 ' ' = s.getD 4 ' ' := by
      rw [List.getD_eq_getElem?_getD, List.getD_eq_getElem?_getD,
        List.getElem?_take]
      norm_num
    have e3 : ((s.take 10).drop 5).take 2 = (s.drop 5).take 2 := by
      rw [List.drop_take, List.take_take]
      norm_num
    have e4 : (s.take 10).getD 7 ' ' = s.getD 7 ' ' := by
      rw [List.getD_eq_getElem?_getD, List.getD_eq_getElem?_getD,
        List.getElem?_take]
      norm_num
    have e5 : ((s.take 10).drop 8).take 2 = (s.drop 8).take 2 := by
      rw [List.drop_take, List.take_take]
      norm_num
    rw [e1, e2, e3, e4, e5]
  · intro y1 y2 y3 y4 m1 m2 d1 d2 h1 h2 h3 h4 h5 h6 h7 h8
    simp only [parse_date]
    rw [if_neg (by simp)]
    have w1 : List.take 4 [digitChar y1, digitChar y2, digitChar y3,
        digitChar y4, '-', digitChar m1, digitChar m2, '-', digitChar d1,
        digitChar d2] = [digitChar y1, digitChar y2, digitChar y3,
        digitChar y4] := rfl
    rw [w1, fromCharsInt_four_digits h1 h2 h3 h4]
    dsimp only
    rw [if_pos ⟨rfl, rfl⟩]
    have w2 : (List.drop 5 [digitChar y1, digitChar y2, digitChar y3,
        digitChar y4, '-', digitChar m1, digitChar m2, '-', digitChar d1,
        digitChar d2]).take 2 = [digitChar m1, digitChar m2] := rfl
    rw [w2, fromCharsInt_two_digits h5 h6]
    dsimp only
    rw [if_pos ⟨rfl, rfl⟩]
    have w3 : (List.drop 8 [digitChar y1, digitChar y2, digitChar y3,
        digitChar y4, '-', digitChar m1, digitChar m2, '-', digitChar d1,
        digitChar d2]).take 2 = [digitChar d1, digitChar d2] := rfl
    rw [w3, fromCharsInt_two_digits h7 h8]
    dsimp only
    rw [if_pos rfl]
    have hy0 : (0 : Int) ≤ ((1000 * y1 + 100 * y2 + 10 * y3 + y4 : Nat) : Int) :=
      Int.natCast_nonneg _
    have hy1 : ((1000 * y1 + 100 * y2 + 10 * y3 + y4 : Nat) : Int) ≤ 9999 := by
      have : (1000 * y1 + 100 * y2 + 10 * y3 + y4 : Nat) ≤ 9999 := by omega
      exact_mod_cast this
    by_cases hcond : 1 ≤ ((10 * m1 + m2 : Nat) : Int) ∧
        ((10 * m1 + m2 : Nat) : Int) ≤ 12 ∧
        1 ≤ ((10 * d1 + d2 : Nat) : Int) ∧
        ((10 * d1 + d2 : Nat) : Int) ≤
          daysInMonth ((1000 * y1 + 100 * y2 + 10 * y3 + y4 : Nat) : Int)
            ((10 * m1 + m2 : Nat) : Int)
    · rw [if_pos ((ymdOk_eq_true_iff hy0 hy1).mpr hcond), if_pos hcond]
    · rw [if_neg (fun hc => hcond ((ymdOk_eq_true_iff hy0 hy1).mp hc)),
        if_neg hcond]

/-- Concrete instance of the amended C6 statement: trailing bytes do not
change the result. -/
theorem parse_date_first_ten_bytes_witness :
    parse_date "2024-02-29 extra".toList =
      parse_date ("2024-02-29 extra".toList.take 10) :=
  parse_date_first_ten_bytes.2.1 "2024-02-29 extra".toList (by decide)

/-! ## SIMD scanners (`detail::find_field_end`, `detail::find_newline`) -/

/-- A byte terminating a field: the delimiter, LF or CR. -/
def isFieldTerm (delim c : Char) : Bool := c == delim || c == '\n' || c == '\r'

/-- The 16-byte-block loop shared by the NEON and SSE2 paths: while at
least 16 bytes remain, test the whole block for any match (the
`movemask` / `vorrq` test) and, on a hit, return the offset of the first
matching byte inside the block (`ctz` of the mask, or the NEON inner
scan); otherwise finish with the scalar remainder loop.  The loop is
fuel-indexed to keep the recursion structural; one fuel unit per 16-byte
block, so `l.length` fuel is always enough, and the fuel-exhausted base
case coincides with the scalar answer. -/
def findVecGoF (p : Char → Bool) : Nat → List Char → Nat
  | 0, l => l.findIdx p
  | fuel + 1, l =>
    if 16 ≤ l.length then
      if (l.take 16).any p then (l.take 16).findIdx p
      else 16 + findVecGoF p fuel (l.drop 16)
    else l.findIdx p

/-- The vectorized block loop. -/
def findVecGo (p : Char → Bool) (l : List Char) : Nat :=
  findVecGoF p l.length l

/-- `detail::find_field_end(data, len, delim)`: the vectorized path for
`len >= 16`, the scalar fallback loop otherwise. -/
def find_field_end (delim : Char) (l : List Char) : Nat :=
  if 16 ≤ l.length then findVecGo (isFieldTerm delim) l
  else l.findIdx (isFieldTerm delim)

/-- `detail::find_newline(data, len)`: same structure restricted to LF. -/
def find_newline (l : List Char) : Nat :=
  if 16 ≤ l.length then findVecGo (fun c => c == '\n') l
  else l.findIdx (fun c => c == '\n')

/-- The block loop computes exactly the scalar first-match index,
whatever the fuel. -/
lemma findVecGoF_eq (p : Char → Bool) :
    ∀ fuel (l : List Char), findVecGoF p fuel l = l.findIdx p := by
  intro fuel
  induction fuel with
  | zero => intro l; rfl
  | succ fuel ih =>
    intro l
    rw [findVecGoF]
    by_cases h16 : 16 ≤ l.length
    · rw [if_pos h16]
      by_cases hany : (l.take 16).any p = true
      · rw [if_pos hany]
        conv_rhs => rw [← List.take_append_drop 16 l]
        rw [List.findIdx_append]
        have hlt : (l.take 16).findIdx p < (l.take 16).length :=
          List.findIdx_lt_length.mpr (List.any_eq_true.mp hany)
        rw [if_pos hlt]
      · rw [if_neg hany]
        rw [ih (l.drop 16)]
        conv_rhs => rw [← List.take_append_drop 16 l]
        rw [List.findIdx_append]
        have hnone : ¬ (l.take 16).findIdx p < (l.take 16).length := by
          rw [List.findIdx_lt_length]
          intro hex
          exact hany (List.any_eq_true.mpr hex)
        rw [if_neg hnone]
        rw [List.length_take, Nat.min_eq_left h16]
        omega
    · rw [if_neg h16]

/-- The block loop computes exactly the scalar first-match index. -/
lemma findVecGo_eq (p : Char → Bool) (l : List Char) :
    findVecGo p l = l.findIdx p :=
  findVecGoF_eq p l.length l

/-- Both scanners agree with the scalar reference on every input. -/
lemma find_field_end_eq_findIdx (delim : Char) (l : List Char) :
    find_field_end delim l = l.findIdx (isFieldTerm delim) := by
  unfold find_field_end
  split_ifs with h
  · exact findVecGo_eq _ l
  · rfl

lemma find_newline_eq_findIdx (l : List Char) :
    find_newline l = l.findIdx (fun c => c == '\n') := by
  unfold find_newline
  split_ifs with h
  · exact findVecGo_eq _ l
  · rfl

/-- C4: `find_field_end` returns the least index holding the delimiter,
LF or CR (or `len` when none exists), `find_newline` the least index
holding LF (or `len`), the result never exceeds `len`, and the vectorized
path (taken for `len >= 16`) agrees with the scalar fallback on every
input. -/
theorem scanners_least_terminator (delim : Char) (l : List Char) :
    (find_field_end delim l = l.findIdx (isFieldTerm delim)) ∧
    (find_newline l = l.findIdx (fun c => c == '\n')) ∧
    find_field_end delim l ≤ l.length ∧
    find_newline l ≤ l.length ∧
    (∀ hlt : find_field_end delim l < l.length,
      isFieldTerm delim (l.get ⟨find_field_end delim l, hlt⟩) = true) ∧
    (∀ j (hj : j < l.length), j < find_field_end delim l →
      isFieldTerm delim (l.get ⟨j, hj⟩) = false) ∧
    ((∀ c ∈ l, isFieldTerm delim c = false) →
      find_field_end delim l = l.length) ∧
    (∀ hlt : find_newline l < l.length, l.get ⟨find_newline l, hlt⟩ = '\n') ∧
    (∀ j (hj : j < l.length), j < find_newline l → l.get ⟨j, hj⟩ ≠ '\n') ∧
    ((∀ c ∈ l, ¬ c = '\n') → find_newline l = l.length) := by
  have he1 := find_field_end_eq_findIdx delim l
  have he2 := find_newline_eq_findIdx l
  refine ⟨he1, he2, ?_, ?_, ?_, ?_, ?_, ?_, ?_, ?_⟩
  · rw [he1]
    exact List.findIdx_le_length _
  · rw [he2]
    exact List.findIdx_le_length _
  · intro hlt
    have hlt2 : List.findIdx (isFieldTerm delim) l < l.length := he1 ▸ hlt
    have heq : l.get ⟨find_field_end delim l, hlt⟩ =
        l.get ⟨List.findIdx (isFieldTerm delim) l, hlt2⟩ := by
      congr 1
      exact Fin.ext he1
    rw [heq]
    simpa using List.findIdx_getElem (w := hlt2)
  · intro j hj hlt
    rw [he1] at hlt
    simpa using List.not_of_lt_findIdx hlt
  · intro hnone
    rw [he1]
    have : ¬ l.findIdx (isFieldTerm delim) < l.length := by
      rw [List.findIdx_lt_length]
      rintro ⟨x, hx, hpx⟩
      rw [hnone x hx] at hpx
      exact Bool.false_ne_true hpx
    have hle := @List.findIdx_le_length Char (isFieldTerm delim) l
    omega
  · intro hlt
    have hlt2 : List.findIdx (fun c => c == '\n') l < l.length := he2 ▸ hlt
    have heq : l.get ⟨find_newline l, hlt⟩ =
        l.get ⟨List.findIdx (fun c => c == '\n') l, hlt2⟩ := by
      congr 1
      exact Fin.ext he2
    rw [heq]
    have := List.findIdx_getElem (w := hlt2)
    simpa using this
  · intro j hj hlt
    rw [he2] at hlt
    have := List.not_of_lt_findIdx hlt
    simpa using this
  · intro hnone
    rw [he2]
    have : ¬ l.findIdx (fun c => c == '\n') < l.length := by
      rw [List.findIdx_lt_length]
      rintro ⟨x, hx, hpx⟩
      exact hnone x hx (by simpa using hpx)
    have hle := @List.findIdx_le_length Char (fun c => c == '\n') l
    omega

/-- Concrete instance of the C4 statement: a 20-byte terminator-free
input exercises the vectorized path and returns `len`. -/
theorem scanners_least_terminator_witness :
    find_field_end ',' "abcdefghijklmnopqrst".toList =
      "abcdefghijklmnopqrst".toList.length :=
  (scanners_least_terminator ',' "abcdefghijklmnopqrst".toList).2.2.2.2.2.2.1
    (by decide)

/-! ## Record iterator (`Reader`) -/

/-- Compile-time reader parameters: column count `N`, delimiter byte `D`,
and the error-policy flags (`ErrorPolicy::enabled`,
`ErrorPolicy::track_line`). -/
structure RConfig where
  n : Nat
  delim : Char
  enabled : Bool
  track_line : Bool
  deriving DecidableEq, Repr

/-- One record as handed to a callback: the field byte slices in column
order. -/
abbrev Row := List (List Char)

/-- The inner field loop shared by the data-row paths and the header
parse: `while (col < Columns && ptr < effective_end)`, slicing at
`find_field_end` and then skipping one delimiter byte.  Each field is
returned together with the byte sitting at its end (`none` at end of
line), which is what the trailing-empty-field rule inspects
(`*(ends[col-1])`). -/
def fieldLoop (delim : Char) : Nat → List Char → List (List Char × Option Char)
  | 0, _ => []
  | _ + 1, [] => []
  | k + 1, c :: t =>
    let rem := c :: t
    let i := find_field_end delim rem
    let fld := rem.take i
    let rest := rem.drop i
    let rest2 := match rest with
      | d :: u => if d = delim then u else rest
      | [] => []
    (fld, rest.head?) :: fieldLoop delim k rest2

/-- Field list of one data row: the field loop over the CR-stripped line
followed by the trailing-empty-field rule (`col > 0 && col < Columns &&
ends[col-1] < effective_end && *(ends[col-1]) == Delim`). -/
def splitRow (delim : Char) (n : Nat) (eff : List Char) : Row :=
  let raw := fieldLoop delim n eff
  let fields := raw.map Prod.fst
  match raw.getLast? with
  | some (_, some d) =>
      if raw.length < n ∧ d = delim then fields ++ [[]] else fields
  | _ => fields

/-- CRLF handling: strip one trailing CR from a line
(`effective_end`). -/
def effLine (line : List Char) : List Char :=
  if line.getLast? = some '\r' then line.dropLast else line

/-- `Reader::for_each_raw`, fuel-indexed so that the recursion is
structural: one fuel unit per iteration of `while (current_ < end_)`.
Line numbers are `uint32_t` and the recorded column count is `uint8_t`,
hence the explicit truncations.  Returns the records handed to the
callback, the final cursor suffix, the line counter and the error
info. -/
def runRawF (cfg : RConfig) : Nat → List Char → Nat → ErrorInfo →
    List Row × List Char × Nat × ErrorInfo
  | 0, rem, ln, err => ([], rem, ln, err)
  | fuel + 1, rem, ln, err =>
    match rem with
    | [] => ([], [], ln, err)
    | c :: t =>
      let ln1 := if cfg.track_line then (ln + 1) % 4294967296 else ln
      if c = '\n' then runRawF cfg fuel t ln1 err
      else if c = '\r' then
        runRawF cfg fuel (if t.head? = some '\n' then t.tail else t) ln1 err
      else
        let i := find_newline (c :: t)
        let line := (c :: t).take i
        let rem2 := (c :: t).drop (i + 1)
        let fields := splitRow cfg.delim cfg.n (effLine line)
        if cfg.enabled = true ∧ fields.length ≠ cfg.n then
          runRawF cfg fuel rem2 ln1
            ⟨.ColumnCountMismatch, if cfg.track_line then ln1 else 0,
              fields.length % 256⟩
        else
          let r := runRawF cfg fuel rem2 ln1 err
          (fields :: r.1, r.2)

/-- `Reader::for_each_raw` proper: the loop always terminates because
every iteration consumes at least one byte, so `rem.length` fuel
suffices. -/
def runRaw (cfg : RConfig) (rem : List Char) (ln : Nat) (err : ErrorInfo) :
    List Row × List Char × Nat × ErrorInfo :=
  runRawF cfg rem.length rem ln err

lemma runRawF_irrel (cfg : RConfig) : ∀ f1 f2 (rem : List Char) ln err,
    rem.length ≤ f1 → rem.length ≤ f2 →
    runRawF cfg f1 rem ln err = runRawF cfg f2 rem ln err := by
  intro f1
  induction f1 with
  | zero =>
    intro f2 rem ln err h1 h2
    have hrem : rem = [] := List.length_eq_zero.mp (Nat.le_zero.mp h1)
    subst hrem
    cases f2 <;> rfl
  | succ f1 ih =>
    intro f2 rem ln err h1 h2
    cases f2 with
    | zero =>
      have hrem : rem = [] := List.length_eq_zero.mp (Nat.le_zero.mp h2)
      subst hrem
      rfl
    | succ f2 =>
      cases rem with
      | nil => rfl
      | cons c t =>
        have hT : t.length ≤ f1 := by
          simp only [List.length_cons] at h1
          omega
        have hT2 : t.length ≤ f2 := by
          simp only [List.length_cons] at h2
          omega
        simp only [runRawF]
        by_cases hnl : c = '\n'
        · rw [if_pos hnl, if_pos hnl]
          exact ih f2 t _ _ hT hT2
        rw [if_neg hnl, if_neg hnl]
        by_cases hcr : c = '\r'
        · rw [if_pos hcr, if_pos hcr]
          by_cases hh : t.head? = some '\n'
          · rw [if_pos hh]
            refine ih f2 t.tail _ _ ?_ ?_ <;>
              simp only [List.length_tail] <;> omega
          · rw [if_neg hh]
            exact ih f2 t _ _ hT hT2
        rw [if_neg hcr, if_neg hcr]
        have hR : ((c :: t).drop (find_newline (c :: t) + 1)).length ≤ f1 := by
          simp only [List.length_drop, List.length_cons]
          omega
        have hR2 : ((c :: t).drop (find_newline (c :: t) + 1)).length ≤ f2 := by
          simp only [List.length_drop, List.length_cons]
          omega
        by_cases he : cfg.enabled = true ∧
            (splitRow cfg.delim cfg.n
              (effLine ((c :: t).take (find_newline (c :: t))))).length ≠ cfg.n
        · rw [if_pos he, if_pos he]
          exact ih f2 _ _ _ hR hR2
        · rw [if_neg he, if_neg he]
          rw [ih f2 _ _ _ hR hR2]

lemma runRaw_nil (cfg : RConfig) (ln : Nat) (err : ErrorInfo) :
    runRaw cfg [] ln err = ([], [], ln, err) := rfl

/-- One iteration of the `for_each_raw` loop, stated on the fuel-free
function. -/
lemma runRaw_cons (cfg : RConfig) (c : Char) (t : List Char) (ln : Nat)
    (err : ErrorInfo) :
    runRaw cfg (c :: t) ln err =
      (let ln1 := if cfg.track_line then (ln + 1) % 4294967296 else ln
       if c = '\n' then runRaw cfg t ln1 err
       else if c = '\r' then
         runRaw cfg (if t.head? = some '\n' then t.tail else t) ln1 err
       else
         let i := find_newline (c :: t)
         let rem2 := (c :: t).drop (i + 1)
         let fields := splitRow cfg.delim cfg.n (effLine ((c :: t).take i))
         if cfg.enabled = true ∧ fields.length ≠ cfg.n then
           runRaw cfg rem2 ln1
             ⟨.ColumnCountMismatch, if cfg.track_line then ln1 else 0,
               fields.length % 256⟩
         else
           let r := runRaw cfg rem2 ln1 err
           (fields :: r.1, r.2)) := by
  simp only [runRaw, List.length_cons, runRawF]
  by_cases hnl : c = '\n'
  · simp only [if_pos hnl]
  simp only [if_neg hnl]
  by_cases hcr : c = '\r'
  · simp only [if_pos hcr]
    apply runRawF_irrel
    · split_ifs with hh
      · simp only [List.length_tail]
        omega
      · omega
    · exact Nat.le_refl _
  simp only [if_neg hcr]
  have hb : ((c :: t).drop (find_newline (c :: t) + 1)).length ≤ t.length := by
    simp only [List.length_drop, List.length_cons]
    omega
  by_cases he : cfg.enabled = true ∧
      (splitRow cfg.delim cfg.n
        (effLine ((c :: t).take (find_newline (c :: t))))).length ≠ cfg.n
  · simp only [if_pos he]
    exact runRawF_irrel cfg t.length _ _ _ _ hb (Nat.le_refl _)
  · simp only [if_neg he]
    rw [runRawF_irrel cfg t.length _ _ _ _ hb (Nat.le_refl _)]

/-- `Reader::for_each_until`, fuel-indexed: the callback decides whether
to continue; `count` is incremented before the callback runs; with the
error policy enabled a short row is skipped with `continue` and, unlike
`for_each_raw`, nothing is written to `last_error_`.  Returns the number
of callback invocations, the final cursor suffix, the line counter and
the (unchanged by this loop's policy branch) error info. -/
def runUntilF (cfg : RConfig) (cb : Row → Bool) : Nat → List Char → Nat →
    ErrorInfo → Nat × List Char × Nat × ErrorInfo
  | 0, rem, ln, err => (0, rem, ln, err)
  | fuel + 1, rem, ln, err =>
    match rem with
    | [] => (0, [], ln, err)
    | c :: t =>
      let ln1 := if cfg.track_line then (ln + 1) % 4294967296 else ln
      if c = '\n' then runUntilF cfg cb fuel t ln1 err
      else if c = '\r' then
        runUntilF cfg cb fuel (if t.head? = some '\n' then t.tail else t)
          ln1 err
      else
        let i := find_newline (c :: t)
        let rem2 := (c :: t).drop (i + 1)
        let fields := splitRow cfg.delim cfg.n (effLine ((c :: t).take i))
        if cfg.enabled = true ∧ fields.length ≠ cfg.n then
          runUntilF cfg cb fuel rem2 ln1 err
        else
          if cb fields then
            let r := runUntilF cfg cb fuel rem2 ln1 err
            (r.1 + 1, r.2)
          else (1, rem2, ln1, err)

/-- `Reader::for_each_until` proper. -/
def runUntil (cfg : RConfig) (cb : Row → Bool) (rem : List Char) (ln : Nat)
    (err : ErrorInfo) : Nat × List Char × Nat × ErrorInfo :=
  runUntilF cfg cb rem.length rem ln err

lemma runUntilF_irrel (cfg : RConfig) (cb : Row → Bool) :
    ∀ f1 f2 (rem : List Char) ln err,
    rem.length ≤ f1 → rem.length ≤ f2 →
    runUntilF cfg cb f1 rem ln err = runUntilF cfg cb f2 rem ln err := by
  intro f1
  induction f1 with
  | zero =>
    intro f2 rem ln err h1 h2
    have hrem : rem = [] := List.length_eq_zero.mp (Nat.le_zero.mp h1)
    subst hrem
    cases f2 <;> rfl
  | succ f1 ih =>
    intro f2 rem ln err h1 h2
    cases f2 with
    | zero =>
      have hrem : rem = [] := List.length_eq_zero.mp (Nat.le_zero.mp h2)
      subst hrem
      rfl
    | succ f2 =>
      cases rem with
      | nil => rfl
      | cons c t =>
        have hT : t.length ≤ f1 := by
          simp only [List.length_cons] at h1
          omega
        have hT2 : t.length ≤ f2 := by
          simp only [List.length_cons] at h2
          omega
        simp only [runUntilF]
        by_cases hnl : c = '\n'
        · rw [if_pos hnl, if_pos hnl]
          exact ih f2 t _ _ hT hT2
        rw [if_neg hnl, if_neg hnl]
        by_cases hcr : c = '\r'
        · rw [if_pos hcr, if_pos hcr]
          by_cases hh : t.head? = some '\n'
          · rw [if_pos hh]
            refine ih f2 t.tail _ _ ?_ ?_ <;>
              simp only [List.length_tail] <;> omega
          · rw [if_neg hh]
            exact ih f2 t _ _ hT hT2
        rw [if_neg hcr, if_neg hcr]
        have hR : ((c :: t).drop (find_newline (c :: t) + 1)).length ≤ f1 := by
          simp only [List.length_drop, List.length_cons]
          omega
        have hR2 : ((c :: t).drop (find_newline (c :: t) + 1)).length ≤ f2 := by
          simp only [List.length_drop, List.length_cons]
          omega
        by_cases he : cfg.enabled = true ∧
            (splitRow cfg.delim cfg.n
              (effLine ((c :: t).take (find_newline (c :: t))))).length ≠ cfg.n
        · rw [if_pos he, if_pos he]
          exact ih f2 _ _ _ hR hR2
        · rw [if_neg he, if_neg he]
          by_cases hcb : cb (splitRow cfg.delim cfg.n
              (effLine ((c :: t).take (find_newline (c :: t))))) = true
          · rw [if_pos hcb, if_pos hcb]
            rw [ih f2 _ _ _ hR hR2]
          · rw [if_neg hcb, if_neg hcb]

lemma runUntil_nil (cfg : RConfig) (cb : Row → Bool) (ln : Nat)
    (err : ErrorInfo) : runUntil cfg cb [] ln err = (0, [], ln, err) := rfl

/-- One iteration of the `for_each_until` loop. -/
lemma runUntil_cons (cfg : RConfig) (cb : Row → Bool) (c : Char)
    (t : List Char) (ln : Nat) (err : ErrorInfo) :
    runUntil cfg cb (c :: t) ln err =
      (let ln1 := if cfg.track_line then (ln + 1) % 4294967296 else ln
       if c = '\n' then runUntil cfg cb t ln1 err
       else if c = '\r' then
         runUntil cfg cb (if t.head? = some '\n' then t.tail else t) ln1 err
       else
         let i := find_newline (c :: t)
         let rem2 := (c :: t).drop (i + 1)
         let fields := splitRow cfg.delim cfg.n (effLine ((c :: t).take i))
         if cfg.enabled = true ∧ fields.length ≠ cfg.n then
           runUntil cfg cb rem2 ln1 err
         else
           if cb fields then
             let r := runUntil cfg cb rem2 ln1 err
             (r.1 + 1, r.2)
           else (1, rem2, ln1, err)) := by
  simp only [runUntil, List.length_cons, runUntilF]
  by_cases hnl : c = '\n'
  · simp only [if_pos hnl]
  simp only [if_neg hnl]
  by_cases hcr : c = '\r'
  · simp only [if_pos hcr]
    apply runUntilF_irrel
    · split_ifs with hh
      · simp only [List.length_tail]
        omega
      · omega
    · exact Nat.le_refl _
  simp only [if_neg hcr]
  have hb : ((c :: t).drop (find_newline (c :: t) + 1)).length ≤ t.length := by
    simp only [List.length_drop, List.length_cons]
    omega
  by_cases he : cfg.enabled = true ∧
      (splitRow cfg.delim cfg.n
        (effLine ((c :: t).take (find_newline (c :: t))))).length ≠ cfg.n
  · simp only [if_pos he]
    exact runUntilF_irrel cfg cb t.length _ _ _ _ hb (Nat.le_refl _)
  · simp only [if_neg he]
    by_cases hcb : cb (splitRow cfg.delim cfg.n
        (effLine ((c :: t).take (find_newline (c :: t))))) = true
    · simp only [if_pos hcb]
      rw [runUntilF_irrel cfg cb t.length _ _ _ _ hb (Nat.le_refl _)]
    · simp only [if_neg hcb]

/-- `Reader::parse_header`: nothing happens at end of range; otherwise
one line is consumed, split by the same field loop as data rows (without
the trailing-empty rule), and the parsed names fill `column_names_`,
whose remaining slots keep their default empty value. -/
def parseHeader (cfg : RConfig) : List Char → Nat →
    List (List Char) × List Char × Nat
  | [], ln => (List.replicate cfg.n [], [], ln)
  | c :: t, ln =>
    let ln1 := if cfg.track_line then (ln + 1) % 4294967296 else ln
    let i := find_newline (c :: t)
    let eff := effLine ((c :: t).take i)
    let names := (fieldLoop cfg.delim cfg.n eff).map Prod.fst
    (names ++ List.replicate (cfg.n - names.length) [],
      (c :: t).drop (i + 1), ln1)

/-- `Reader::Reader(filepath, skip_header)`: header names, initial
cursor suffix and initial line counter. -/
def readerInit (cfg : RConfig) (file : List Char) (skipHeader : Bool) :
    List (List Char) × List Char × Nat :=
  if skipHeader then parseHeader cfg file 0
  else (List.replicate cfg.n [], file, 0)

/-- `Reader::column_name(idx)`. -/
def column_name (cfg : RConfig) (names : List (List Char)) (idx : Nat) :
    List Char :=
  if idx < cfg.n then names.getD idx [] else []

/-- Construct a `Reader` (with `last_error` initially `Ok`) and run
`for_each_raw` to completion. -/
def readerForEachRaw (cfg : RConfig) (file : List Char) (skipHeader : Bool) :
    List Row × List Char × Nat × ErrorInfo :=
  let ini := readerInit cfg file skipHeader
  runRaw cfg ini.2.1 ini.2.2 ⟨.Ok, 0, 0⟩

lemma fieldLoop_length_le (delim : Char) :
    ∀ k (l : List Char), (fieldLoop delim k l).length ≤ k := by
  intro k
  induction k with
  | zero =>
    intro l
    simp [fieldLoop]
  | succ k ih =>
    intro l
    cases l with
    | nil => simp [fieldLoop]
    | cons c t =>
      simp only [fieldLoop, List.length_cons]
      exact Nat.succ_le_succ (ih _)

lemma readerInit_names_length (cfg : RConfig) (file : List Char) (sh : Bool) :
    (readerInit cfg file sh).1.length = cfg.n := by
  unfold readerInit
  split_ifs with h
  · cases file with
    | nil => simp [parseHeader]
    | cons c t =>
      simp only [parseHeader, List.length_append, List.length_map,
        List.length_replicate]
      have := fieldLoop_length_le cfg.delim cfg.n
        (effLine ((c :: t).take (find_newline (c :: t))))
      omega
  · simp

/-- C10: `column_name` is total at the public interface: the stored
header array always holds exactly `N` slices (parsed names padded with
empty slices), an in-range index returns the stored slice, and any index
at or past `N` returns the empty slice instead of reading out of
bounds. -/
theorem column_name_total (cfg : RConfig) (file : List Char) (sh : Bool)
    (idx : Nat) :
    ((readerInit cfg file sh).1).length = cfg.n ∧
    (idx < cfg.n →
      column_name cfg (readerInit cfg file sh).1 idx =
        ((readerInit cfg file sh).1).getD idx []) ∧
    (cfg.n ≤ idx → column_name cfg (readerInit cfg file sh).1 idx = []) := by
  refine ⟨readerInit_names_length cfg file sh, ?_, ?_⟩
  · intro h
    unfold column_name
    rw [if_pos h]
  · intro h
    unfold column_name
    rw [if_neg (by omega)]

/-- Concrete instance of the C10 statement: an out-of-range index on a
3-column reader yields the empty slice. -/
theorem column_name_total_witness :
    column_name ⟨3, ',', true, true⟩
      (readerInit ⟨3, ',', true, true⟩ "a,b,c\nx".toList true).1 7 = [] :=
  (column_name_total ⟨3, ',', true, true⟩ "a,b,c\nx".toList true 7).2.2
    (by decide)

/-- C1: over `"a,b,c\n1,2,3\n4,5\n6,7,8\n"` with `N = 3`, comma
delimiter, the Checked policy (error tracking enabled, line tracking on)
and `skip_header = true`, `for_each_raw` hands the callback exactly the
two complete records and returns 2, and afterwards `last_error` holds
`ColumnCountMismatch` for line 3 (1-based, the header counting as line
1) with the observed column count 2. -/
theorem checked_reader_scenario :
    (readerForEachRaw ⟨3, ',', true, true⟩
        "a,b,c\n1,2,3\n4,5\n6,7,8\n".toList true).1 =
      [[['1'], ['2'], ['3']], [['6'], ['7'], ['8']]] ∧
    (readerForEachRaw ⟨3, ',', true, true⟩
        "a,b,c\n1,2,3\n4,5\n6,7,8\n".toList true).1.length = 2 ∧
    (readerForEachRaw ⟨3, ',', true, true⟩
        "a,b,c\n1,2,3\n4,5\n6,7,8\n".toList true).2.2.2 =
      ⟨.ColumnCountMismatch, 3, 2⟩ :=
  ⟨rfl, rfl, rfl⟩

lemma runRawF_final_rem (cfg : RConfig) : ∀ f (rem : List Char) ln err,
    rem.length ≤ f → (runRawF cfg f rem ln err).2.1 = [] := by
  intro f
  induction f with
  | zero =>
    intro rem ln err h
    have hrem : rem = [] := List.length_eq_zero.mp (Nat.le_zero.mp h)
    subst hrem
    rfl
  | succ f ih =>
    intro rem ln err h
    cases rem with
    | nil => rfl
    | cons c t =>
      have hT : t.length ≤ f := by
        simp only [List.length_cons] at h
        omega
      simp only [runRawF]
      by_cases hnl : c = '\n'
      · rw [if_pos hnl]
        exact ih t _ _ hT
      rw [if_neg hnl]
      by_cases hcr : c = '\r'
      · rw [if_pos hcr]
        refine ih _ _ _ ?_
        split_ifs with hh
        · simp only [List.length_tail]
          omega
        · exact hT
      rw [if_neg hcr]
      have hR : ((c :: t).drop (find_newline (c :: t) + 1)).length ≤ f := by
        simp only [List.length_drop, List.length_cons]
        omega
      by_cases he : cfg.enabled = true ∧
          (splitRow cfg.delim cfg.n
            (effLine ((c :: t).take (find_newline (c :: t))))).length ≠ cfg.n
      · rw [if_pos he]
        exact ih _ _ _ hR
      · rw [if_neg he]
        exact ih _ _ _ hR

/-- `for_each_raw` always leaves the cursor at end-of-range. -/
lemma runRaw_final_rem (cfg : RConfig) (rem : List Char) (ln : Nat)
    (err : ErrorInfo) : (runRaw cfg rem ln err).2.1 = [] :=
  runRawF_final_rem cfg rem.length rem ln err (Nat.le_refl _)

/-- C9: iteration is one-shot.  The cursor is threaded through the
reader state and never reset: a completed `for_each_raw` pass leaves the
cursor at end-of-range, and on a reader whose cursor is at end-of-range
every surface (`for_each_raw`, `for_each` — which delegates to it — and
`for_each_until`) invokes its callback zero times and returns 0; in
particular any call made after a completed `for_each_raw` pass yields
zero records. -/
theorem reader_iteration_one_shot (cfg : RConfig) (cb : Row → Bool)
    (rem : List Char) (ln : Nat) (err : ErrorInfo) :
    (runRaw cfg rem ln err).2.1 = [] ∧
    (runRaw cfg [] ln err).1 = [] ∧
    (runUntil cfg cb [] ln err).1 = 0 ∧
    (runRaw cfg (runRaw cfg rem ln err).2.1 (runRaw cfg rem ln err).2.2.1
        (runRaw cfg rem ln err).2.2.2).1 = [] ∧
    (runUntil cfg cb (runRaw cfg rem ln err).2.1
        (runRaw cfg rem ln err).2.2.1 (runRaw cfg rem ln err).2.2.2).1 = 0 := by
  refine ⟨runRaw_final_rem cfg rem ln err, rfl, rfl, ?_, ?_⟩
  · rw [runRaw_final_rem cfg rem ln err]
    rfl
  · rw [runRaw_final_rem cfg rem ln err]
    rfl

lemma findIdx_eq_length {α : Type} {p : α → Bool} {l : List α}
    (h : ∀ c ∈ l, p c = false) : l.findIdx p = l.length := by
  have h1 : ¬ l.findIdx p < l.length := by
    rw [List.findIdx_lt_length]
    rintro ⟨x, hx, hp⟩
    rw [h x hx] at hp
    exact Bool.false_ne_true hp
  have h2 := @List.findIdx_le_length _ p l
  omega

lemma find_newline_append_nl {line : List Char} (h : '\n' ∉ line) :
    find_newline (line ++ ['\n']) = line.length := by
  rw [find_newline_eq_findIdx, List.findIdx_append]
  have hl : line.findIdx (fun c => c == '\n') = line.length :=
    findIdx_eq_length (fun c hc => by
      simp only [beq_eq_false_iff_ne, ne_eq]
      intro he
      subst he
      exact h hc)
  rw [hl]
  simp [List.findIdx_cons]

/-- C2 counterexample: with the Checked policy (error tracking enabled)
over the short data row `4,5` (N = 3), `for_each_until` skips the
callback, but — unlike `for_each_raw` — leaves `last_error` untouched
(`Ok`, not `ColumnCountMismatch`), because its `col != Columns` branch is
a bare `continue` with no `last_error_` assignment. -/
theorem for_each_until_drops_error_record :
    (runUntil ⟨3, ',', true, true⟩ (fun _ => true) "4,5\n".toList 1
        ⟨.Ok, 0, 0⟩).1 = 0 ∧
    (runUntil ⟨3, ',', true, true⟩ (fun _ => true) "4,5\n".toList 1
        ⟨.Ok, 0, 0⟩).2.2.2 = ⟨.Ok, 0, 0⟩ :=
  ⟨rfl, rfl⟩

/-- C2 amended: when the error policy is enabled and a data row yields
`col ≠ N` fields, `for_each_raw` (and therefore `for_each`, which
delegates to it) records `ColumnCountMismatch` in `last_error` — with
the current line number when line tracking is on, else 0, and the
observed column count truncated to `uint8_t` — and does not invoke the
callback; `for_each_until` also skips the callback for such a row, but
leaves `last_error` unchanged. -/
theorem short_row_error_handling (cfg : RConfig) (cb : Row → Bool)
    (line : List Char) (ln : Nat) (err : ErrorInfo)
    (hne : line ≠ []) (hnl : '\n' ∉ line) (hcr : line.head? ≠ some '\r')
    (hen : cfg.enabled = true)
    (hcols : (splitRow cfg.delim cfg.n (effLine line)).length ≠ cfg.n) :
    runRaw cfg (line ++ ['\n']) ln err =
      ([], [], (if cfg.track_line then (ln + 1) % 4294967296 else ln),
        ⟨.ColumnCountMismatch,
          (if cfg.track_line then (ln + 1) % 4294967296 else 0),
          (splitRow cfg.delim cfg.n (effLine line)).length % 256⟩) ∧
    runUntil cfg cb (line ++ ['\n']) ln err =
      (0, [], (if cfg.track_line then (ln + 1) % 4294967296 else ln),
        err) := by
  cases hl : line with
  | nil => exact absurd hl hne
  | cons c t =>
    subst hl
    have hc_nl : ¬ c = '\n' := fun h => hnl (h ▸ List.mem_cons_self c t)
    have hc_cr : ¬ c = '\r' := fun h => hcr (by rw [h]; rfl)
    have hfn : find_newline ((c :: t) ++ ['\n']) = (c :: t).length :=
      find_newline_append_nl hnl
    have htake : ((c :: t) ++ ['\n']).take ((c :: t).length) = c :: t :=
      List.take_left (c :: t) ['\n']
    have hdrop : ((c :: t) ++ ['\n']).drop ((c :: t).length + 1) = [] := by
      apply List.drop_eq_nil_of_le
      simp
    constructor
    · have hstep := runRaw_cons cfg c (t ++ ['\n']) ln err
      simp only [List.cons_append] at hfn htake hdrop ⊢
      rw [hstep]
      simp only [if_neg hc_nl, if_neg hc_cr, hfn, htake, hdrop]
      rw [if_pos ⟨hen, hcols⟩]
      by_cases htr : cfg.track_line = true
      · simp only [if_pos htr]
        rfl
      · simp only [if_neg htr]
        rfl
    · have hstep := runUntil_cons cfg cb c (t ++ ['\n']) ln err
      simp only [List.cons_append] at hfn htake hdrop ⊢
      rw [hstep]
      simp only [if_neg hc_nl, if_neg hc_cr, hfn, htake, hdrop]
      rw [if_pos ⟨hen, hcols⟩]
      rfl

/-- Concrete instance of the amended C2 statement. -/
theorem short_row_error_handling_witness :
    (runUntil ⟨3, ',', true, true⟩ (fun _ => true) ("4,5".toList ++ ['\n']) 1
        ⟨.Ok, 0, 0⟩).1 = 0 := by
  have h := (short_row_error_handling ⟨3, ',', true, true⟩ (fun _ => true)
    "4,5".toList 1 ⟨.Ok, 0, 0⟩ (by decide) (by decide) (by decide) rfl
    (by decide)).2
  rw [h]

/-! ## Parallel reader (`ParallelReader`) -/

/-- `ParallelReader::parse_chunk`: the record algorithm of
`for_each_raw` with no error or line state; a row reaches the callback
exactly when it yields `N` fields.  Fuel-indexed like the other
loops. -/
def parseChunkF (delim : Char) (n : Nat) : Nat → List Char → List Row
  | 0, _ => []
  | fuel + 1, rem =>
    match rem with
    | [] => []
    | c :: t =>
      if c = '\n' then parseChunkF delim n fuel t
      else if c = '\r' then
        parseChunkF delim n fuel (if t.head? = some '\n' then t.tail else t)
      else
        let i := find_newline (c :: t)
        let rem2 := (c :: t).drop (i + 1)
        let fields := splitRow delim n (effLine ((c :: t).take i))
        if fields.length = n then fields :: parseChunkF delim n fuel rem2
        else parseChunkF delim n fuel rem2

/-- `parse_chunk` proper. -/
def parseChunk (delim : Char) (n : Nat) (l : List Char) : List Row :=
  parseChunkF delim n l.length l

lemma parseChunkF_irrel (delim : Char) (n : Nat) :
    ∀ f1 f2 (rem : List Char), rem.length ≤ f1 → rem.length ≤ f2 →
    parseChunkF delim n f1 rem = parseChunkF delim n f2 rem := by
  intro f1
  induction f1 with
  | zero =>
    intro f2 rem h1 h2
    have hrem : rem = [] := List.length_eq_zero.mp (Nat.le_zero.mp h1)
    subst hrem
    cases f2 <;> rfl
  | succ f1 ih =>
    intro f2 rem h1 h2
    cases f2 with
    | zero =>
      have hrem : rem = [] := List.length_eq_zero.mp (Nat.le_zero.mp h2)
      subst hrem
      rfl
    | succ f2 =>
      cases rem with
      | nil => rfl
      | cons c t =>
        have hT : t.length ≤ f1 := by
          simp only [List.length_cons] at h1
          omega
        have hT2 : t.length ≤ f2 := by
          simp only [List.length_cons] at h2
          omega
        simp only [parseChunkF]
        by_cases hnl : c = '\n'
        · rw [if_pos hnl, if_pos hnl]
          exact ih f2 t hT hT2
        rw [if_neg hnl, if_neg hnl]
        by_cases hcr : c = '\r'
        · rw [if_pos hcr, if_pos hcr]
          by_cases hh : t.head? = some '\n'
          · rw [if_pos hh]
            refine ih f2 t.tail ?_ ?_ <;>
              simp only [List.length_tail] <;> omega
          · rw [if_neg hh]
            exact ih f2 t hT hT2
        rw [if_neg hcr, if_neg hcr]
        have hR : ((c :: t).drop (find_newline (c :: t) + 1)).length ≤ f1 := by
          simp only [List.length_drop, List.length_cons]
          omega
        have hR2 : ((c :: t).drop (find_newline (c :: t) + 1)).length ≤ f2 := by
          simp only [List.length_drop, List.length_cons]
          omega
        by_cases he : (splitRow delim n
            (effLine ((c :: t).take (find_newline (c :: t))))).length = n
        · rw [if_pos he, if_pos he]
          rw [ih f2 _ hR hR2]
        · rw [if_neg he, if_neg he]
          exact ih f2 _ hR hR2

lemma parseChunk_nil (delim : Char) (n : Nat) : parseChunk delim n [] = [] :=
  rfl

/-- One iteration of the `parse_chunk` loop. -/
lemma parseChunk_cons (delim : Char) (n : Nat) (c : Char) (t : List Char) :
    parseChunk delim n (c :: t) =
      (if c = '\n' then parseChunk delim n t
       else if c = '\r' then
         parseChunk delim n (if t.head? = some '\n' then t.tail else t)
       else
         let i := find_newline (c :: t)
         let rem2 := (c :: t).drop (i + 1)
         let fields := splitRow delim n (effLine ((c :: t).take i))
         if fields.length = n then fields :: parseChunk delim n rem2
         else parseChunk delim n rem2) := by
  simp only [parseChunk, List.length_cons, parseChunkF]
  by_cases hnl : c = '\n'
  · simp only [if_pos hnl]
  simp only [if_neg hnl]
  by_cases hcr : c = '\r'
  · simp only [if_pos hcr]
    apply parseChunkF_irrel
    · split_ifs with hh
      · simp only [List.length_tail]
        omega
      · omega
    · exact Nat.le_refl _
  simp only [if_neg hcr]
  have hb : ((c :: t).drop (find_newline (c :: t) + 1)).length ≤ t.length := by
    simp only [List.length_drop, List.length_cons]
    omega
  by_cases he : (splitRow delim n
      (effLine ((c :: t).take (find_newline (c :: t))))).length = n
  · simp only [if_pos he]
    rw [parseChunkF_irrel delim n t.length _ _ hb (Nat.le_refl _)]
  · simp only [if_neg he]
    exact parseChunkF_irrel delim n t.length _ _ hb (Nat.le_refl _)

lemma mem_of_getLast?_eq {α : Type} {l : List α} {a : α}
    (h : l.getLast? = some a) : a ∈ l := by
  rw [List.getLast?_eq_getElem?] at h
  exact List.getElem?_mem h

lemma find_newline_lt_length {A : List Char} (h : '\n' ∈ A) :
    find_newline A < A.length := by
  rw [find_newline_eq_findIdx]
  exact List.findIdx_lt_length.mpr ⟨'\n', h, by simp⟩

lemma find_newline_append_left {A : List Char} (B : List Char)
    (h : '\n' ∈ A) : find_newline (A ++ B) = find_newline A := by
  rw [find_newline_eq_findIdx, find_newline_eq_findIdx, List.findIdx_append]
  have hlt : A.findIdx (fun c => c == '\n') < A.length :=
    List.findIdx_lt_length.mpr ⟨'\n', h, by simp⟩
  rw [if_pos hlt]

/-- Parsing distributes over a split at a line boundary: when `A` ends
with a newline, the chunk parser over `A ++ B` produces the records of
`A` followed by those of `B`. -/
lemma parseChunk_append (delim : Char) (n : Nat) :
    ∀ (m : Nat) (A B : List Char), A.length ≤ m → A.getLast? = some '\n' →
    parseChunk delim n (A ++ B) =
      parseChunk delim n A ++ parseChunk delim n B := by
  intro m
  induction m with
  | zero =>
    intro A B hle hlast
    have hA : A = [] := List.length_eq_zero.mp (Nat.le_zero.mp hle)
    subst hA
    simp at hlast
  | succ m ih =>
    intro A B hle hlast
    cases A with
    | nil => simp at hlast
    | cons c t =>
      have hTle : t.length ≤ m := by
        simp only [List.length_cons] at hle
        omega
      rw [List.cons_append, parseChunk_cons, parseChunk_cons delim n c t]
      by_cases hnl : c = '\n'
      · rw [if_pos hnl, if_pos hnl]
        cases t with
        | nil => simp [parseChunk_nil]
        | cons d u =>
          exact ih (d :: u) B hTle (by rw [← List.getLast?_cons_cons (a := c)]; exact hlast)
      rw [if_neg hnl, if_neg hnl]
      by_cases hcr : c = '\r'
      · rw [if_pos hcr, if_pos hcr]
        cases t with
        | nil =>
          exfalso
          have : c = '\n' := by simpa using hlast
          exact hnl this
        | cons d u =>
          have hlast2 : (d :: u).getLast? = some '\n' := by
            rw [← List.getLast?_cons_cons (a := c)]
            exact hlast
          by_cases hd : d = '\n'
          · subst hd
            simp only [List.cons_append, List.head?_cons, List.tail_cons,
              if_pos rfl]
            cases u with
            | nil => simp [parseChunk_nil]
            | cons e v =>
              exact ih (e :: v) B
                (by simp only [List.length_cons] at hTle ⊢; omega)
                (by rw [← List.getLast?_cons_cons (a := '\n')]; exact hlast2)
          · have hh1 : ((d :: u) ++ B).head? = some d := by simp
            have hh2 : (d :: u).head? = some d := rfl
            rw [hh1, hh2, if_neg (by simpa using hd), if_neg (by simpa using hd)]
            exact ih (d :: u) B hTle hlast2
      rw [if_neg hcr, if_neg hcr]
      have hmem : '\n' ∈ c :: t := mem_of_getLast?_eq hlast
      have hflt : find_newline (c :: t) < (c :: t).length :=
        find_newline_lt_length hmem
      have hfn : find_newline ((c :: t) ++ B) = find_newline (c :: t) :=
        find_newline_append_left B hmem
      have htk : ((c :: t) ++ B).take (find_newline (c :: t)) =
          (c :: t).take (find_newline (c :: t)) :=
        List.take_append_of_le_length (by omega)
      have hdr : ((c :: t) ++ B).drop (find_newline (c :: t) + 1) =
          (c :: t).drop (find_newline (c :: t) + 1) ++ B :=
        List.drop_append_of_le_length (by omega)
      simp only [List.cons_append] at hfn htk hdr
      simp only [hfn, htk, hdr]
      have hrec : parseChunk delim n
          ((c :: t).drop (find_newline (c :: t) + 1) ++ B) =
          parseChunk delim n ((c :: t).drop (find_newline (c :: t) + 1)) ++
            parseChunk delim n B := by
        by_cases hA2 : (c :: t).drop (find_newline (c :: t) + 1) = []
        · rw [hA2]
          simp [parseChunk_nil]
        · have hlast2 : ((c :: t).drop (find_newline (c :: t) + 1)).getLast? =
              some '\n' := by
            rw [List.getLast?_drop]
            rw [if_neg (by
              intro hcon
              exact hA2 (List.drop_eq_nil_of_le hcon))]
            exact hlast
          refine ih _ B ?_ hlast2
          simp only [List.length_drop, List.length_cons]
          omega
      rw [hrec]
      by_cases he : (splitRow delim n
          (effLine ((c :: t).take (find_newline (c :: t))))).length = n
      · rw [if_pos he, if_pos he]
        simp
      · rw [if_neg he, if_neg he]


/-- The slice `[s, e)` of the mapped data. -/
def sliceL (data : List Char) (s e : Nat) : List Char :=
  (data.drop s).take (e - s)

/-- One boundary step of `for_each_parallel`: `approx_end = chunk_start +
chunk_size`, clamped to the end of data, otherwise advanced to the byte
just past the next newline (or to the end when no newline remains). -/
def chunkEnd (data : List Char) (csize start : Nat) : Nat :=
  let approx := start + csize
  if data.length ≤ approx then data.length
  else
    let a := approx + find_newline (data.drop approx)
    if a < data.length then a + 1 else a

/-- The boundary loop (`for i < num_threads - 1 && chunk_start < end`)
followed by the final-chunk push; the first argument counts the loop
iterations still allowed. -/
def mkChunksGo (data : List Char) (csize : Nat) :
    Nat → Nat → List (List Char)
  | 0, start =>
    if start < data.length then [sliceL data start data.length] else []
  | iters + 1, start =>
    if start < data.length then
      sliceL data start (chunkEnd data csize start) ::
        mkChunksGo data csize iters (chunkEnd data csize start)
    else []

/-- The chunk list of `for_each_parallel` over the post-header region:
`chunk_size = size / K`, `K - 1` boundary-loop iterations, then the last
chunk. -/
def mkChunks (data : List Char) (k : Nat) : List (List Char) :=
  if data.length = 0 then []
  else mkChunksGo data (data.length / k) (k - 1) 0

lemma chunkEnd_spec (data : List Char) (csize start : Nat)
    (h : start < data.length) :
    start < chunkEnd data csize start ∧
    chunkEnd data csize start ≤ data.length ∧
    (chunkEnd data csize start = data.length ∨
      data.getD (chunkEnd data csize start - 1) ' ' = '\n') := by
  unfold chunkEnd
  by_cases hap : data.length ≤ start + csize
  · rw [if_pos hap]
    exact ⟨h, Nat.le_refl _, Or.inl rfl⟩
  · rw [if_neg hap]
    push_neg at hap
    have hfl : find_newline (data.drop (start + csize)) ≤
        data.length - (start + csize) := by
      have := find_newline_eq_findIdx (data.drop (start + csize))
      rw [this]
      have := @List.findIdx_le_length Char (fun c => c == '\n')
        (data.drop (start + csize))
      simpa using this
    by_cases hlt : start + csize + find_newline (data.drop (start + csize)) <
        data.length
    · rw [if_pos hlt]
      refine ⟨by omega, by omega, Or.inr ?_⟩
      have hidx : find_newline (data.drop (start + csize)) <
          (data.drop (start + csize)).length := by
        simp only [List.length_drop]
        omega
      have hnl : (data.drop (start + csize)).get
          ⟨find_newline (data.drop (start + csize)), hidx⟩ = '\n' := by
        have h2 : List.findIdx (fun c => c == '\n')
            (data.drop (start + csize)) <
            (data.drop (start + csize)).length := by
          rw [← find_newline_eq_findIdx]
          exact hidx
        have h3 := List.findIdx_getElem (w := h2)
        have h4 : (data.drop (start + csize)).get
            ⟨find_newline (data.drop (start + csize)), hidx⟩ =
            (data.drop (start + csize)).get
            ⟨List.findIdx (fun c => c == '\n') (data.drop (start + csize)),
              h2⟩ := by
          congr 1
          exact Fin.ext (find_newline_eq_findIdx _)
        rw [h4]
        simpa using h3
      rw [List.getD_eq_getElem?_getD]
      have : start + csize + find_newline (data.drop (start + csize)) + 1 -
          1 = start + csize + find_newline (data.drop (start + csize)) := by
        omega
      rw [this]
      have hle2 : start + csize + find_newline (data.drop (start + csize)) <
          data.length := hlt
      rw [List.getElem?_eq_getElem hle2]
      simp only [Option.getD_some]
      have hgd := List.getElem_drop data
        (i := start + csize)
        (j := find_newline (data.drop (start + csize))) (h := hidx)
      rw [List.get_eq_getElem] at hnl
      rw [← hgd]
      exact hnl
    · rw [if_neg hlt]
      refine ⟨by omega, by omega, Or.inl (by omega)⟩

/-- A slice whose right boundary sits just past a newline ends with that
newline. -/
lemma sliceL_getLast (data : List Char) (s e : Nat) (hs : s < e)
    (he : e ≤ data.length) (hnl : data.getD (e - 1) ' ' = '\n') :
    (sliceL data s e).getLast? = some '\n' := by
  unfold sliceL
  have hlen : ((data.drop s).take (e - s)).length = e - s := by
    simp only [List.length_take, List.length_drop]
    omega
  rw [List.getLast?_eq_getElem?, hlen]
  rw [List.getElem?_take]
  rw [if_pos (by omega)]
  rw [List.getElem?_drop]
  have harith : s + (e - s - 1) = e - 1 := by omega
  rw [harith]
  rw [List.getD_eq_getElem?_getD] at hnl
  have hlt : e - 1 < data.length := by omega
  rw [List.getElem?_eq_getElem hlt] at hnl ⊢
  simp only [Option.getD_some] at hnl
  rw [hnl]

/-- The chunk loop partitions the region and, chunk by chunk, its
per-chunk parses concatenate to the parse of the whole region. -/
lemma parseChunk_mkChunksGo (delim : Char) (n : Nat) (data : List Char)
    (csize : Nat) : ∀ iters start, start ≤ data.length →
    ((mkChunksGo data csize iters start).map (parseChunk delim n)).flatten =
      parseChunk delim n (data.drop start) := by
  intro iters
  induction iters with
  | zero =>
    intro start hstart
    unfold mkChunksGo
    by_cases h : start < data.length
    · rw [if_pos h]
      have : sliceL data start data.length = data.drop start := by
        unfold sliceL
        rw [← List.length_drop]
        exact List.take_length _
      simp [this]
    · rw [if_neg h]
      have : data.drop start = [] := List.drop_eq_nil_of_le (by omega)
      simp [this, parseChunk_nil]
  | succ iters ih =>
    intro start hstart
    unfold mkChunksGo
    by_cases h : start < data.length
    · rw [if_pos h]
      obtain ⟨h1, h2, h3⟩ := chunkEnd_spec data csize start h
      have hsplit : sliceL data start (chunkEnd data csize start) ++
          data.drop (chunkEnd data csize start) = data.drop start := by
        unfold sliceL
        have : data.drop (chunkEnd data csize start) =
            (data.drop start).drop (chunkEnd data csize start - start) := by
          rw [List.drop_drop]
          congr 1
          omega
        rw [this]
        exact List.take_append_drop _ _
      have hchain : parseChunk delim n (data.drop start) =
          parseChunk delim n
            (sliceL data start (chunkEnd data csize start)) ++
          parseChunk delim n (data.drop (chunkEnd data csize start)) := by
        rw [← hsplit]
        rcases h3 with h3 | h3
        · have : data.drop (chunkEnd data csize start) = [] := by
            rw [h3]
            exact List.drop_eq_nil_of_le (Nat.le_refl _)
          rw [this]
          simp [parseChunk_nil]
        · exact parseChunk_append delim n
            (sliceL data start (chunkEnd data csize start)).length _ _
            (Nat.le_refl _)
            (sliceL_getLast data start (chunkEnd data csize start) h1 h2 h3)
      rw [hchain]
      simp only [List.map_cons, List.flatten_cons]
      rw [ih (chunkEnd data csize start) h2]
    · rw [if_neg h]
      have : data.drop start = [] := List.drop_eq_nil_of_le (by omega)
      simp [this, parseChunk_nil]

/-- With the error policy enabled, the single-threaded reader delivers to
its callback exactly the records of the chunk algorithm: both skip
short rows and emit rows with `N` fields, and neither error nor line
state influences the records. -/
lemma runRawF_records (cfg : RConfig) (hen : cfg.enabled = true) :
    ∀ f (rem : List Char) ln err,
    (runRawF cfg f rem ln err).1 = parseChunkF cfg.delim cfg.n f rem := by
  intro f
  induction f with
  | zero => intro rem ln err; rfl
  | succ f ih =>
    intro rem ln err
    cases rem with
    | nil => rfl
    | cons c t =>
      simp only [runRawF, parseChunkF]
      by_cases hnl : c = '\n'
      · rw [if_pos hnl, if_pos hnl]
        exact ih t _ _
      rw [if_neg hnl, if_neg hnl]
      by_cases hcr : c = '\r'
      · rw [if_pos hcr, if_pos hcr]
        exact ih _ _ _
      rw [if_neg hcr, if_neg hcr]
      by_cases he : (splitRow cfg.delim cfg.n
          (effLine ((c :: t).take (find_newline (c :: t))))).length = cfg.n
      · rw [if_neg (by rw [hen]; simp [he]), if_pos he]
        dsimp only
        rw [ih _ _ _]
      · rw [if_pos ⟨hen, he⟩, if_neg he]
        exact ih _ _ _

lemma runRaw_records_eq (cfg : RConfig) (hen : cfg.enabled = true)
    (rem : List Char) (ln : Nat) (err : ErrorInfo) :
    (runRaw cfg rem ln err).1 = parseChunk cfg.delim cfg.n rem :=
  runRawF_records cfg hen rem.length rem ln err

/-- `ParallelReader::ParallelReader` with `skip_header = true`: the
post-header byte range handed to the chunking loop. -/
def parallelData (file : List Char) : List Char :=
  file.drop (find_newline file + 1)

/-- All records delivered to the callback by `for_each_parallel`, in
chunk order (each worker preserves the order inside its chunk; the
cross-worker interleaving never changes the multiset). -/
def forEachParallelRecords (delim : Char) (n : Nat) (file : List Char)
    (k : Nat) : List Row :=
  ((mkChunks (parallelData file) k).map (parseChunk delim n)).flatten

/-- The value returned by `for_each_parallel`: the per-worker counts are
summed after the join. -/
def forEachParallelCount (delim : Char) (n : Nat) (file : List Char)
    (k : Nat) : Nat :=
  (((mkChunks (parallelData file) k).map (parseChunk delim n)).map
    List.length).sum

/-- The single-threaded `Reader` constructor skips exactly the same
header bytes as the `ParallelReader` constructor. -/
lemma readerInit_rem (cfg : RConfig) (file : List Char) :
    (readerInit cfg file true).2.1 = parallelData file := by
  cases file with
  | nil => rfl
  | cons c t => rfl

/-- C3: for every input file and every worker count `K ≥ 1`, the
multiset of records (tuples of field byte slices) delivered by
`for_each_parallel` equals the multiset delivered by the single-threaded
error-checked reader over the same file (the parallel surface implicitly
enables error checking: both emit exactly the rows with `N` fields);
moreover the value returned by `for_each_parallel` is the sum of the
per-worker record counts, which is the total number of callback
invocations. -/
theorem parallel_reader_matches_single (n : Nat) (delim : Char) (tl : Bool)
    (file : List Char) (k : Nat) (hk : 1 ≤ k) :
    (forEachParallelRecords delim n file k : Multiset Row) =
      ((readerForEachRaw ⟨n, delim, true, tl⟩ file true).1 : Multiset Row) ∧
    forEachParallelCount delim n file k =
      ((mkChunks (parallelData file) k).map
        (fun chunk => (parseChunk delim n chunk).length)).sum ∧
    forEachParallelCount delim n file k =
      (forEachParallelRecords delim n file k).length := by
  have hlist : forEachParallelRecords delim n file k =
      (readerForEachRaw ⟨n, delim, true, tl⟩ file true).1 := by
    unfold forEachParallelRecords readerForEachRaw
    rw [runRaw_records_eq _ rfl, readerInit_rem]
    unfold mkChunks
    by_cases h0 : (parallelData file).length = 0
    · rw [if_pos h0]
      have hpd : parallelData file = [] := List.length_eq_zero.mp h0
      rw [hpd]
      simp [parseChunk_nil]
    · rw [if_neg h0]
      have hmain := parseChunk_mkChunksGo delim n (parallelData file)
        ((parallelData file).length / k) (k - 1) 0 (by omega)
      rw [List.drop_zero] at hmain
      exact hmain
  refine ⟨by rw [hlist], ?_, ?_⟩
  · unfold forEachParallelCount
    rw [List.map_map]
    rfl
  · unfold forEachParallelCount forEachParallelRecords
    exact (List.length_flatten _).symm

/-- Concrete instance of the C3 statement at `K = 4` over the C1
scenario file. -/
theorem parallel_reader_matches_single_witness :
    (forEachParallelRecords ',' 3 "a,b,c\n1,2,3\n4,5\n6,7,8\n".toList 4 :
        Multiset Row) =
      ((readerForEachRaw ⟨3, ',', true, true⟩
          "a,b,c\n1,2,3\n4,5\n6,7,8\n".toList true).1 : Multiset Row) :=
  (parallel_reader_matches_single 3 ',' true
    "a,b,c\n1,2,3\n4,5\n6,7,8\n".toList 4 (by omega)).1

end BlazeCSV
